import Mathlib

/-!
Verification of the DTN compute-fabric core (`rec/dtn`): the named-data
Storage engine, the Executor job pipeline, the shared discovery state
machine, and the bundle codec.  Each Python operation is embedded as a
pure Lean function over an explicit state; exceptions become `Except`
results paired with the state at the moment of the raise.
-/

namespace Dtn

/-- Blob contents, modelled as a list of byte values. -/
abbrev Bytes := List Nat

/-- One row of the TinyDB name index: `{"name": ..., "filename": ...}`.
`filename` is the hex digest the blob file is stored under. -/
structure Entry where
  name : String
  filename : String
deriving DecidableEq, Repr

/-- State of `Storage`: the TinyDB index (`database.db`) and the contents of
the blob directory, as an association list from blob filename to bytes. -/
structure StorageState where
  index : List Entry
  blobs : List (String × Bytes)
deriving DecidableEq, Repr

/-- The two typed storage errors, `NameTakenError` and `NoSuchNameError`. -/
inductive StorageError where
  | nameTaken (name : String)
  | noSuchName (name : String)
deriving DecidableEq, Repr

/-- The names currently present in the index. -/
def storedNames (s : StorageState) : List String := s.index.map Entry.name

/-- First half of `Storage.store_data` after the uniqueness check: materialize
the blob file unless a file with the same digest already exists (dedup). -/
def writeBlob (hash : Bytes → String) (s : StorageState) (data : Bytes) : StorageState :=
  if (s.blobs.lookup (hash data)).isSome then s
  else { s with blobs := s.blobs ++ [(hash data, data)] }

/-- Second half of `Storage.store_data`: `db.insert({"name": ..., "filename": ...})`. -/
def insertRow (hash : Bytes → String) (s : StorageState) (name : String) (data : Bytes) :
    StorageState :=
  { s with index := s.index ++ [{ name := name, filename := hash data }] }

/-- `Storage.store_data(name, data)`: raise `NameTakenError` if the name is
already indexed, otherwise write the blob (dedup-aware) and then insert the
index row.  `hash` stands for `sha1(...).hexdigest()`. -/
def storeData (hash : Bytes → String) (s : StorageState) (name : String) (data : Bytes) :
    Except StorageError Unit × StorageState :=
  if s.index.any (fun e => e.name == name) then (.error (.nameTaken name), s)
  else (.ok (), insertRow hash (writeBlob hash s data) name data)

/-- `Storage.find_missing(names)`: the queried names that have no index entry.
The early return on an empty query mirrors the source. -/
def findMissing (s : StorageState) (names : Finset String) : Finset String :=
  if names = ∅ then ∅
  else names.filter (fun n => ¬ (s.index.any (fun e => e.name == n) = true))

/-- Index invariant ruling out partial inserts: every index row has a
materialized blob file. -/
def wfStorage (s : StorageState) : Prop :=
  ∀ e ∈ s.index, (s.blobs.lookup e.filename).isSome = true

theorem lookup_append {β : Type} (a : String) (l₁ l₂ : List (String × β)) :
    (l₁ ++ l₂).lookup a = ((l₁.lookup a).or (l₂.lookup a)) := by
  induction l₁ with
  | nil => simp [List.lookup]
  | cons p t ih =>
      by_cases h : a = p.1
      · simp [List.lookup, h]
      · simpa [List.lookup, beq_false_of_ne h] using ih

theorem lookup_isSome_append {β : Type} (a : String) (l₁ l₂ : List (String × β))
    (h : (l₁.lookup a).isSome = true) : ((l₁ ++ l₂).lookup a).isSome = true := by
  rw [lookup_append]
  cases hl : l₁.lookup a with
  | none => rw [hl] at h; cases h
  | some b => simp [hl]

/-- C9: `find_missing` computes exactly the set difference of the query
against the indexed names; the empty query yields the empty set; and the
result depends only on the index, never on the blob directory (names whose
blob files have vanished are not reported missing). -/
theorem findMissing_set_difference (s : StorageState) (R : Finset String) :
    findMissing s R = R \ (storedNames s).toFinset
    ∧ findMissing s ∅ = ∅
    ∧ ∀ bs : List (String × Bytes), findMissing { s with blobs := bs } R = findMissing s R := by
  refine ⟨?_, by simp [findMissing], by intro bs; simp [findMissing]⟩
  by_cases hR : R = ∅
  · simp [findMissing, hR]
  · rw [findMissing, if_neg hR]
    ext n
    simp [Finset.mem_filter, Finset.mem_sdiff, storedNames, List.any_eq_true]

theorem writeBlob_index (hash : Bytes → String) (s : StorageState) (d : Bytes) :
    (writeBlob hash s d).index = s.index := by
  unfold writeBlob; split <;> rfl

theorem writeBlob_lookup_isSome (hash : Bytes → String) (s : StorageState) (d : Bytes) :
    ((writeBlob hash s d).blobs.lookup (hash d)).isSome = true := by
  unfold writeBlob
  by_cases hb : (s.blobs.lookup (hash d)).isSome = true
  · simpa [if_pos hb] using hb
  · rw [if_neg hb]
    simp only
    rw [lookup_append]
    cases hl : s.blobs.lookup (hash d) with
    | none => simp [List.lookup]
    | some b => rw [hl] at hb; simp at hb

theorem writeBlob_wf (hash : Bytes → String) (s : StorageState) (d : Bytes)
    (hwf : wfStorage s) : wfStorage (writeBlob hash s d) := by
  intro e he
  rw [writeBlob_index] at he
  unfold writeBlob
  by_cases hb : (s.blobs.lookup (hash d)).isSome = true
  · rw [if_pos hb]; exact hwf e he
  · rw [if_neg hb]
    simp only
    exact lookup_isSome_append _ _ _ (hwf e he)

/-- C4: `store_data` raises `NameTaken(n)` exactly when `n` is already
indexed; on that error the state (index and blob directory) is untouched; on
success the index gains exactly the row `(n, hash d)`, the blob for `hash d`
is materialized, and well-formedness (no index row without a blob) holds both
for the intermediate state after the blob write and for the final state, so a
partial insert is impossible. -/
theorem storeData_atomic (hash : Bytes → String) (s : StorageState) (n : String) (d : Bytes) :
    ((storeData hash s n d).1 = .error (.nameTaken n) ↔ n ∈ storedNames s)
    ∧ ((storeData hash s n d).1 ≠ .ok () → (storeData hash s n d).2 = s)
    ∧ (∀ s', storeData hash s n d = (.ok (), s') →
        s'.index = s.index ++ [{ name := n, filename := hash d }]
        ∧ (s'.blobs.lookup (hash d)).isSome = true
        ∧ (wfStorage s → wfStorage (writeBlob hash s d) ∧ wfStorage s')) := by
  by_cases htaken : s.index.any (fun e => e.name == n) = true
  · refine ⟨?_, ?_, ?_⟩
    · simp only [storeData, if_pos htaken]
      constructor
      · intro _
        simp only [List.any_eq_true, beq_iff_eq] at htaken
        obtain ⟨e, he, hen⟩ := htaken
        exact hen ▸ List.mem_map_of_mem Entry.name he
      · intro _; trivial
    · intro _
      simp only [storeData]
      rw [if_pos htaken]
    · intro s' hs'
      simp only [storeData] at hs'
      rw [if_pos htaken] at hs'
      cases hs'
  · have hnotin : n ∉ storedNames s := by
      intro hn
      apply htaken
      simp only [storedNames, List.mem_map] at hn
      obtain ⟨e, he, hen⟩ := hn
      simp only [List.any_eq_true, beq_iff_eq]
      exact ⟨e, he, hen⟩
    refine ⟨?_, ?_, ?_⟩
    · simp only [storeData]
      rw [if_neg htaken]
      constructor
      · intro h; cases h
      · intro hn; exact absurd hn hnotin
    · intro h
      exfalso
      apply h
      simp only [storeData]
      rw [if_neg htaken]
    · intro s' hs'
      simp only [storeData] at hs'
      rw [if_neg htaken] at hs'
      simp only [Prod.mk.injEq] at hs'
      obtain ⟨-, hs'⟩ := hs'
      subst hs'
      refine ⟨?_, ?_, ?_⟩
      · simp [insertRow, writeBlob_index]
      · show ((writeBlob hash s d).blobs.lookup (hash d)).isSome = true
        exact writeBlob_lookup_isSome hash s d
      · intro hwf
        have hwb : wfStorage (writeBlob hash s d) := writeBlob_wf hash s d hwf
        refine ⟨hwb, ?_⟩
        intro e he
        simp only [insertRow, List.mem_append, List.mem_singleton] at he
        rcases he with he | he
        · exact hwb e he
        · subst he
          exact writeBlob_lookup_isSome hash s d

/-- Witness for `storeData_atomic` at a concrete input: storing `"a"` in the
empty store succeeds, produces exactly one index row, and both the
intermediate and final states are well-formed. -/
theorem storeData_atomic_witness :
    (storeData (fun _ => "f") ⟨[], []⟩ "a" [1]).2.index = [{ name := "a", filename := "f" }]
    ∧ wfStorage (writeBlob (fun _ => "f") ⟨[], []⟩ [1])
    ∧ wfStorage (storeData (fun _ => "f") ⟨[], []⟩ "a" [1]).2 := by
  have h := (storeData_atomic (fun _ => "f") ⟨[], []⟩ "a" [1]).2.2
    (storeData (fun _ => "f") ⟨[], []⟩ "a" [1]).2 rfl
  have hwf : wfStorage (⟨[], []⟩ : StorageState) := by
    intro e he; cases he
  exact ⟨by simpa using h.1, (h.2.2 hwf).1, (h.2.2 hwf).2⟩

/-- Python's `s.startswith(p)`: character-wise prefix test. -/
def startsWith (p s : String) : Bool := p.toList.isPrefixOf s.toList

/-- `Storage._cleanup(names)`: for each given string, run
`db.remove(Query().name == name)` — the removal matches the *name* column of
the index against whatever values it was handed. -/
def cleanup (s : StorageState) (names : List String) : StorageState :=
  { s with index := s.index.filter (fun e => !(names.contains e.name)) }

/-- The entry loop of `Storage.load_data`: collect `(name, data)` for every
entry whose blob file opens, and collect the *filenames* (`entry["filename"]`)
of entries whose blob file raised `FileNotFoundError` into `disappeared`. -/
def loadScan (blobs : List (String × Bytes)) : List Entry → List (String × Bytes) × List String
  | [] => ([], [])
  | e :: rest =>
      let prev := loadScan blobs rest
      match blobs.lookup e.filename with
      | some d => ((e.name, d) :: prev.1, prev.2)
      | none => (prev.1, e.filename :: prev.2)

/-- `Storage.load_data(name)`: prefix search over the index
(`s.startswith(name)`), read each blob, and if any blob files had
disappeared, call `_cleanup(disappeared)` before returning. -/
def loadData (s : StorageState) (name : String) : List (String × Bytes) × StorageState :=
  let entries := s.index.filter (fun e => startsWith name e.name)
  let scanned := loadScan s.blobs entries
  (scanned.1, if scanned.2 ≠ [] then cleanup s scanned.2 else s)

/-- `Storage.copy_to_file(name, destination)`: resolve the name via the index
(`entries[0]`), copy the blob if its file exists (the returned bytes are what
is written to `destination`), otherwise `_cleanup([filename])` and raise
`NoSuchNameError`. -/
def copyToFile (s : StorageState) (name : String) :
    Except StorageError Bytes × StorageState :=
  match s.index.find? (fun e => e.name == name) with
  | none => (.error (.noSuchName name), s)
  | some e =>
      match s.blobs.lookup e.filename with
      | some d => (.ok d, s)
      | none => (.error (.noSuchName name), cleanup s [e.filename])

/-- C1 (the code at the failing input): with a single index entry
`("a", "f")` whose blob file is gone, `load_data("a")` returns no data yet
leaves the stale entry in the index, and `copy_to_file("a", _)` fails with
`NoSuchName` while likewise leaving the stale entry in place: `_cleanup` is
handed blob *filenames* but removes rows whose *name* matches them, which
matches nothing here. -/
theorem loadData_no_self_heal :
    loadData ⟨[{ name := "a", filename := "f" }], []⟩ "a"
      = ([], ⟨[{ name := "a", filename := "f" }], []⟩)
    ∧ copyToFile ⟨[{ name := "a", filename := "f" }], []⟩ "a"
      = (.error (.noSuchName "a"), ⟨[{ name := "a", filename := "f" }], []⟩) := by
  constructor <;> rfl

theorem lookup_eq_some_mem {β : Type} (l : List (String × β)) (a : String) (b : β)
    (h : l.lookup a = some b) : (a, b) ∈ l := by
  induction l with
  | nil => cases h
  | cons p t ih =>
      rcases p with ⟨k, v⟩
      by_cases hk : a = k
      · subst hk
        simp [List.lookup] at h
        subst h
        exact List.mem_cons_self _ _
      · have hne : (a == k) = false := beq_eq_false_iff_ne.mpr hk
        simp only [List.lookup, hne] at h
        exact List.mem_cons_of_mem _ (ih h)

theorem storeData_ok_parts (hash : Bytes → String) (s s' : StorageState) (n : String)
    (d : Bytes) (hok : storeData hash s n d = (.ok (), s')) :
    s'.index = s.index ++ [{ name := n, filename := hash d }]
    ∧ s'.blobs = (writeBlob hash s d).blobs := by
  simp only [storeData] at hok
  split at hok
  · simp at hok
  · simp only [Prod.mk.injEq] at hok
    obtain ⟨-, hok⟩ := hok
    subst hok
    exact ⟨by simp [insertRow, writeBlob_index], rfl⟩

theorem writeBlob_lookup_self (hash : Bytes → String) (s : StorageState) (B : Bytes)
    (hnocol : ∀ p ∈ s.blobs, p.1 = hash B → p.2 = B) :
    (writeBlob hash s B).blobs.lookup (hash B) = some B := by
  unfold writeBlob
  by_cases hb : (s.blobs.lookup (hash B)).isSome = true
  · rw [if_pos hb]
    obtain ⟨C, hC⟩ := Option.isSome_iff_exists.mp hb
    have hm := lookup_eq_some_mem _ _ _ hC
    have hCB : C = B := hnocol _ hm rfl
    rw [hC, hCB]
  · rw [if_neg hb]
    simp only
    rw [lookup_append]
    cases hl : s.blobs.lookup (hash B) with
    | none => simp [List.lookup]
    | some c => rw [hl] at hb; simp at hb

theorem mem_loadScan (blobs : List (String × Bytes)) (entries : List Entry) (m : String)
    (d : Bytes) :
    (m, d) ∈ (loadScan blobs entries).1 ↔
      ∃ e ∈ entries, e.name = m ∧ blobs.lookup e.filename = some d := by
  induction entries with
  | nil => simp [loadScan]
  | cons e rest ih =>
      simp only [loadScan]
      cases hl : blobs.lookup e.filename with
      | some d' =>
          simp only [List.mem_cons, Prod.mk.injEq, ih]
          constructor
          · rintro (⟨hm, hd⟩ | ⟨e', he', hn, hlk⟩)
            · exact ⟨e, Or.inl rfl, hm.symm, by rw [hl, hd]⟩
            · exact ⟨e', Or.inr he', hn, hlk⟩
          · rintro ⟨e', (rfl | he'), hn, hlk⟩
            · rw [hl] at hlk
              injection hlk with hd
              exact Or.inl ⟨hn.symm, hd.symm⟩
            · exact Or.inr ⟨e', he', hn, hlk⟩
      | none =>
          simp only [List.mem_cons, ih]
          constructor
          · rintro ⟨e', he', hn, hlk⟩
            exact ⟨e', Or.inr he', hn, hlk⟩
          · rintro ⟨e', (rfl | he'), hn, hlk⟩
            · rw [hl] at hlk; cases hlk
            · exact ⟨e', he', hn, hlk⟩

theorem mem_loadData (s : StorageState) (p m : String) (d : Bytes) :
    (m, d) ∈ (loadData s p).1 ↔
      ∃ e ∈ s.index, startsWith p e.name = true ∧ e.name = m
        ∧ s.blobs.lookup e.filename = some d := by
  simp only [loadData]
  rw [mem_loadScan]
  constructor
  · rintro ⟨e, he, hn, hlk⟩
    rw [List.mem_filter] at he
    exact ⟨e, he.1, he.2, hn, hlk⟩
  · rintro ⟨e, he, hp, hn, hlk⟩
    exact ⟨e, List.mem_filter.mpr ⟨he, hp⟩, hn, hlk⟩

/-- C8: after a successful `store_data(n, B)` (with no digest collision
against the existing blob directory), `load_data(p)` contains `(n, B)` for
every prefix `p` of `n`; and for every query `p`, the returned pairs are
exactly the index entries whose name starts with `p`, paired with the bytes
of their blob files — every such entry and no other. -/
theorem loadData_roundtrip_prefix (hash : Bytes → String) (s s' : StorageState)
    (n : String) (B : Bytes)
    (hnocol : ∀ p ∈ s.blobs, p.1 = hash B → p.2 = B)
    (hok : storeData hash s n B = (.ok (), s')) :
    (∀ p, startsWith p n = true → (n, B) ∈ (loadData s' p).1)
    ∧ ∀ p m d, (m, d) ∈ (loadData s' p).1 ↔
        ∃ e ∈ s'.index, startsWith p e.name = true ∧ e.name = m
          ∧ s'.blobs.lookup e.filename = some d := by
  obtain ⟨hidx, hblobs⟩ := storeData_ok_parts hash s s' n B hok
  refine ⟨?_, fun p m d => mem_loadData s' p m d⟩
  intro p hp
  rw [mem_loadData]
  refine ⟨{ name := n, filename := hash B }, ?_, hp, rfl, ?_⟩
  · rw [hidx]; simp
  · rw [hblobs]
    exact writeBlob_lookup_self hash s B hnocol

/-- Witness for `loadData_roundtrip_prefix`: storing `"a" ↦ [1]` in the empty
store and loading with prefix `""` and with the full name `"a"` both return
the stored pair. -/
theorem loadData_roundtrip_prefix_witness :
    ("a", [1]) ∈ (loadData ⟨[{ name := "a", filename := "f" }], [("f", [1])]⟩ "a").1
    ∧ ("a", [1]) ∈ (loadData ⟨[{ name := "a", filename := "f" }], [("f", [1])]⟩ "").1 := by
  have h := loadData_roundtrip_prefix (fun _ => "f") ⟨[], []⟩
    ⟨[{ name := "a", filename := "f" }], [("f", [1])]⟩ "a" [1]
    (by intro p hp; cases hp) rfl
  exact ⟨h.1 "a" (by decide), h.1 "" (by decide)⟩

/-- `Capabilities`: the four resource figures (Python ints). -/
structure Capabilities where
  cpu_cores : Int
  free_cpu_capacity : Int
  free_memory : Int
  free_disk_space : Int
deriving DecidableEq, Repr

/-- `Capabilities.is_capable_of(caps)`: component-wise `self ≥ caps`. -/
def isCapableOf (self caps : Capabilities) : Bool :=
  decide (caps.cpu_cores ≤ self.cpu_cores)
  && decide (caps.free_cpu_capacity ≤ self.free_cpu_capacity)
  && decide (caps.free_memory ≤ self.free_memory)
  && decide (caps.free_disk_space ≤ self.free_disk_space)

/-- `JobInfo`, restricted to the fields the scheduler and the WASI sandbox
preparation consume.  Sandbox paths appear already split at `/` into
component lists (so `lstrip("/")` is implicit), `data` and `named_results`
as insertion-ordered pair lists. -/
structure JobInfo where
  wasm_module : String
  capabilities : Capabilities
  stdin_file : Option String := none
  dirs : List (List String) := []
  data : List (List String × String) := []
  stdout_file : Option (List String) := none
  stderr_file : Option (List String) := none
  results : List (List String) := []
  named_results : List (List String × String) := []
  results_receiver : Option String := none
deriving DecidableEq, Repr

/-- `JobInfo.required_named_data()`:
`{wasm_module} ∪ ({stdin_file} if set) ∪ values(data)`. -/
def requiredNamedData (j : JobInfo) : Finset String :=
  (j.wasm_module ::
    ((match j.stdin_file with | some f => [f] | none => [])
      ++ j.data.map Prod.snd)).toFinset

/-- A pending job is runnable iff `_job_has_all_inputs` (no required named
data missing from storage) and `_system_can_run` (the capability snapshot
covers the job's requirements). -/
def runnable (s : StorageState) (sys : Capabilities) (j : JobInfo) : Bool :=
  decide (findMissing s (requiredNamedData j) = ∅) && isCapableOf sys j.capabilities

/-- The loop body of `Executor._pop_next_runnable_job`: `fuel` counts the
remaining iterations of `for _ in range(len(pending))`; the head is popped,
returned if runnable, otherwise rotated to the tail. -/
def popLoop (s : StorageState) (sys : Capabilities) :
    Nat → List JobInfo → Option JobInfo × List JobInfo
  | 0, q => (none, q)
  | Nat.succ fuel, q =>
      match q with
      | [] => (none, [])
      | j :: rest =>
          if runnable s sys j then (some j, rest)
          else popLoop s sys fuel (rest ++ [j])

/-- `Executor._pop_next_runnable_job`: scan at most one full cycle of the
pending deque (head = earliest admitted, since `_handle_job` appends). -/
def popNextRunnableJob (s : StorageState) (sys : Capabilities) (q : List JobInfo) :
    Option JobInfo × List JobInfo :=
  popLoop s sys q.length q

theorem popLoop_skips (s : StorageState) (sys : Capabilities) (pre : List JobInfo)
    (hpre : ∀ x ∈ pre, runnable s sys x = false) :
    ∀ (q : List JobInfo) (n : Nat),
      popLoop s sys (pre.length + n) (pre ++ q) = popLoop s sys n (q ++ pre) := by
  induction pre with
  | nil => intro q n; simp
  | cons j rest ih =>
      intro q n
      have hj : runnable s sys j = false := hpre j (List.mem_cons_self _ _)
      have hlen : (j :: rest).length + n = (rest.length + n) + 1 := by
        simp [List.length_cons]; omega
      rw [hlen]
      show popLoop s sys ((rest.length + n) + 1) (j :: (rest ++ q)) = _
      rw [popLoop]
      simp only [hj, Bool.false_eq_true, if_false]
      have hrest : ∀ x ∈ rest, runnable s sys x = false :=
        fun x hx => hpre x (List.mem_cons_of_mem _ hx)
      have h' := ih hrest (q ++ [j]) n
      rw [← List.append_assoc] at h'
      rw [h']
      simp

/-- C5: `_pop_next_runnable_job` pops the earliest-admitted runnable job —
all jobs ahead of it being non-runnable are rotated to the tail and exactly
the returned job is removed — and when no pending job is runnable it returns
`None` with the deque in its original order (a full rotation restores it). -/
theorem popNextRunnableJob_fifo (s : StorageState) (sys : Capabilities) :
    (∀ pre j post, (∀ x ∈ pre, runnable s sys x = false) → runnable s sys j = true →
        popNextRunnableJob s sys (pre ++ j :: post) = (some j, post ++ pre))
    ∧ ∀ q : List JobInfo, (∀ x ∈ q, runnable s sys x = false) →
        popNextRunnableJob s sys q = (none, q) := by
  constructor
  · intro pre j post hpre hj
    unfold popNextRunnableJob
    have hlen : (pre ++ j :: post).length = pre.length + (post.length + 1) := by
      rw [List.length_append, List.length_cons]
    rw [hlen, popLoop_skips s sys pre hpre (j :: post) (post.length + 1)]
    show popLoop s sys (post.length + 1) (j :: (post ++ pre)) = _
    rw [popLoop]
    simp [hj]
  · intro q hq
    unfold popNextRunnableJob
    have h := popLoop_skips s sys q hq [] 0
    simp only [List.append_nil, Nat.add_zero, List.nil_append] at h
    rw [h]
    rfl

/-- Witness for `popNextRunnableJob_fifo`: with `"m"` stored and `"x"` not,
the job needing `"x"` is rotated past and the job needing only `"m"` is
popped. -/
theorem popNextRunnableJob_fifo_witness :
    popNextRunnableJob ⟨[{ name := "m", filename := "f" }], [("f", [])]⟩ ⟨4, 100, 100, 100⟩
        [{ wasm_module := "x", capabilities := ⟨0, 0, 0, 0⟩ },
         { wasm_module := "m", capabilities := ⟨0, 0, 0, 0⟩ }]
      = (some { wasm_module := "m", capabilities := ⟨0, 0, 0, 0⟩ },
         [{ wasm_module := "x", capabilities := ⟨0, 0, 0, 0⟩ }]) := by
  have h := (popNextRunnableJob_fifo ⟨[{ name := "m", filename := "f" }], [("f", [])]⟩
      ⟨4, 100, 100, 100⟩).1
    [{ wasm_module := "x", capabilities := ⟨0, 0, 0, 0⟩ }]
    { wasm_module := "m", capabilities := ⟨0, 0, 0, 0⟩ } []
    (by
      intro x hx
      simp only [List.mem_singleton] at hx
      subst hx
      decide)
    (by decide)
  simpa using h

/-- `BundleType` (IntEnum). -/
inductive BundleType where
  | BROKER_ANNOUNCE
  | BROKER_REQUEST
  | BROKER_ACK
  | JOB_SUBMIT
  | JOB_RESULT
  | JOB_QUERY
  | JOB_LIST
  | NDATA_PUT
  | NDATA_GET
  | NDATA_DEL
deriving DecidableEq, Repr

/-- Wire values of `BundleType`. -/
def BundleType.toNat : BundleType → Nat
  | .BROKER_ANNOUNCE => 1
  | .BROKER_REQUEST => 2
  | .BROKER_ACK => 3
  | .JOB_SUBMIT => 11
  | .JOB_RESULT => 12
  | .JOB_QUERY => 13
  | .JOB_LIST => 14
  | .NDATA_PUT => 21
  | .NDATA_GET => 22
  | .NDATA_DEL => 23

/-- The `str | list[str]` part of `named_data` (`None` is the `Option`). -/
inductive NamedData where
  | one (name : String)
  | many (names : List String)
deriving DecidableEq, Repr

/-- `BundleData`, with the source's field order and default values; EIDs are
modelled as strings, and `node_type` keeps its raw wire value (its default
`0` is not a `NodeType` member). -/
structure BundleData where
  type : BundleType
  source : String
  destination : String
  payload : Bytes := []
  success : Bool := true
  error : String := ""
  node_type : Nat := 0
  submitter : Option String := none
  named_data : Option NamedData := none
deriving DecidableEq, Repr

/-- The two association slots every node carries (`_broker_pending`,
`_broker`), both starting empty. -/
structure NodeState where
  broker_pending : Option String := none
  broker : Option String := none
deriving DecidableEq, Repr

/-- `Node._handle_discovery(bundle)`: the shared discovery state machine.
Returns the updated slots and the response bundles to send. -/
def handleDiscovery (node_id : String) (node_type : Nat) (s : NodeState)
    (b : BundleData) : NodeState × List BundleData :=
  match b.type with
  | .BROKER_ANNOUNCE =>
      if s.broker_pending = none ∧ s.broker = none then
        ({ broker_pending := some b.source, broker := s.broker },
         [{ type := .BROKER_REQUEST, source := node_id, destination := b.source,
            node_type := node_type }])
      else (s, [])
  | .BROKER_ACK =>
      if s.broker_pending = some b.source then
        ({ broker_pending := none, broker := some b.source }, [])
      else (s, [])
  | _ => (s, [])

/-- C6: from the empty association state, `BROKER_ANNOUNCE` from `X` sets
`broker_pending := X` and emits exactly one `BROKER_REQUEST` addressed to `X`
carrying the node's own `node_type`; a subsequent `BROKER_ACK` from `X` sets
`broker := X`, clears `broker_pending`, and emits nothing; a `BROKER_ACK`
from `Y ≠ X` changes neither slot and emits nothing. -/
theorem discovery_handshake (node_id : String) (node_type : Nat) (X : String)
    (ann ack : BundleData) :
    (ann.type = .BROKER_ANNOUNCE → ann.source = X →
      handleDiscovery node_id node_type ⟨none, none⟩ ann =
        (⟨some X, none⟩,
         [{ type := .BROKER_REQUEST, source := node_id, destination := X,
            node_type := node_type }]))
    ∧ (ack.type = .BROKER_ACK → ack.source = X →
      handleDiscovery node_id node_type ⟨some X, none⟩ ack = (⟨none, some X⟩, []))
    ∧ (ack.type = .BROKER_ACK → ack.source ≠ X →
      handleDiscovery node_id node_type ⟨some X, none⟩ ack = (⟨some X, none⟩, [])) := by
  refine ⟨?_, ?_, ?_⟩
  · intro ht hs
    simp [handleDiscovery, ht, hs]
  · intro ht hs
    simp [handleDiscovery, ht, hs]
  · intro ht hs
    have : ¬ ((some X : Option String) = some ack.source) := by
      intro h
      exact hs (Option.some.inj h).symm
    simp [handleDiscovery, ht, this]

/-- Witness for `discovery_handshake`: a concrete executor handshake with
broker `"B"` and a stray ACK from `"C"`. -/
theorem discovery_handshake_witness :
    handleDiscovery "dtn://exec/worker" 2 ⟨none, none⟩
        { type := .BROKER_ANNOUNCE, source := "B", destination := "all" } =
      (⟨some "B", none⟩,
       [{ type := .BROKER_REQUEST, source := "dtn://exec/worker", destination := "B",
          node_type := 2 }])
    ∧ handleDiscovery "dtn://exec/worker" 2 ⟨some "B", none⟩
        { type := .BROKER_ACK, source := "B", destination := "dtn://exec/worker" } =
      (⟨none, some "B"⟩, [])
    ∧ handleDiscovery "dtn://exec/worker" 2 ⟨some "B", none⟩
        { type := .BROKER_ACK, source := "C", destination := "dtn://exec/worker" } =
      (⟨some "B", none⟩, []) := by
  have h1 := discovery_handshake "dtn://exec/worker" 2 "B"
    { type := .BROKER_ANNOUNCE, source := "B", destination := "all" }
    { type := .BROKER_ACK, source := "B", destination := "dtn://exec/worker" }
  have h2 := discovery_handshake "dtn://exec/worker" 2 "B"
    { type := .BROKER_ANNOUNCE, source := "B", destination := "all" }
    { type := .BROKER_ACK, source := "C", destination := "dtn://exec/worker" }
  exact ⟨h1.1 rfl rfl, h1.2.1 rfl rfl, h2.2.2 rfl (by decide)⟩

/-- The association states reachable by processing discovery bundles from
the initial empty state. -/
inductive ReachableAssoc (node_id : String) (node_type : Nat) : NodeState → Prop where
  | init : ReachableAssoc node_id node_type ⟨none, none⟩
  | step (s : NodeState) (b : BundleData) :
      ReachableAssoc node_id node_type s →
      ReachableAssoc node_id node_type (handleDiscovery node_id node_type s b).1

theorem step_pending_clear (node_id : String) (node_type : Nat) (s : NodeState)
    (b : BundleData) (ih : s.broker ≠ none → s.broker_pending = none) :
    (handleDiscovery node_id node_type s b).1.broker ≠ none →
    (handleDiscovery node_id node_type s b).1.broker_pending = none := by
  cases hb : b.type <;> simp only [handleDiscovery, hb] <;>
    try exact ih
  · split
    · rename_i hcond
      intro hbr
      exact absurd hcond.2 hbr
    · exact ih
  · split
    · intro _; rfl
    · exact ih

theorem reachable_pending_clear (node_id : String) (node_type : Nat) (s : NodeState)
    (h : ReachableAssoc node_id node_type s) :
    s.broker ≠ none → s.broker_pending = none := by
  induction h with
  | init => intro hb; exact absurd rfl hb
  | step s b _ ih => exact step_pending_clear node_id node_type s b ih

/-- C7: in every reachable association state whose `broker` slot holds `X`,
any further discovery bundle leaves the state unchanged and emits nothing;
and in every reachable state the `broker` slot only ever moves from empty to
a value (first-writer-wins monotonicity). -/
theorem association_monotone (node_id : String) (node_type : Nat) (s : NodeState)
    (h : ReachableAssoc node_id node_type s) (b : BundleData) :
    (∀ X, s.broker = some X →
      handleDiscovery node_id node_type s b = (s, []))
    ∧ ((handleDiscovery node_id node_type s b).1.broker = s.broker
        ∨ s.broker = none) := by
  have hdis : ∀ X, s.broker = some X → handleDiscovery node_id node_type s b = (s, []) := by
    intro X hX
    have hpend : s.broker_pending = none :=
      reachable_pending_clear node_id node_type s h (by rw [hX]; exact fun hc => by cases hc)
    cases hb : b.type <;> simp only [handleDiscovery, hb] <;>
      try rfl
    · rw [if_neg]
      intro hc
      rw [hX] at hc
      cases hc.2
    · rw [if_neg]
      intro hc
      rw [hpend] at hc
      cases hc
  refine ⟨hdis, ?_⟩
  by_cases hbr : s.broker = none
  · exact Or.inr hbr
  · obtain ⟨X, hX⟩ := Option.ne_none_iff_exists'.mp hbr
    rw [hdis X hX]
    exact Or.inl rfl

/-- Witness for `association_monotone`: the state `(none, broker = "B")` is
reachable (announce from `"B"`, then its ACK), and a later announcement from
`"C"` neither changes the state nor produces a response. -/
theorem association_monotone_witness :
    handleDiscovery "n" 2 ⟨none, some "B"⟩
        { type := .BROKER_ANNOUNCE, source := "C", destination := "all" } =
      (⟨none, some "B"⟩, []) := by
  have h0 : ReachableAssoc "n" 2 ⟨none, none⟩ := .init
  have h1 := ReachableAssoc.step ⟨none, none⟩
    { type := .BROKER_ANNOUNCE, source := "B", destination := "all" } h0
  have h1' : ReachableAssoc "n" 2 ⟨some "B", none⟩ := by
    simpa [handleDiscovery] using h1
  have h2 := ReachableAssoc.step ⟨some "B", none⟩
    { type := .BROKER_ACK, source := "B", destination := "n" } h1'
  have h2' : ReachableAssoc "n" 2 ⟨none, some "B"⟩ := by
    simpa [handleDiscovery] using h2
  exact (association_monotone "n" 2 ⟨none, some "B"⟩ h2'
    { type := .BROKER_ANNOUNCE, source := "C", destination := "all" }).1 "B" rfl

/-- A msgpack-able Python value as it sits in an instance `__dict__`. -/
inductive PyVal where
  | vnat (n : Nat)
  | vstr (s : String)
  | vbytes (b : Bytes)
  | vbool (b : Bool)
  | vnone
  | vlist (l : List String)
deriving DecidableEq, Repr

/-- A Python instance dictionary: insertion-ordered key/value pairs. -/
abbrev PyDict := List (String × PyVal)

/-- `del d[k]`. -/
def delKey (k : String) (d : PyDict) : PyDict := d.filter (fun p => !(p.1 == k))

/-- The dictionary value of the `named_data` attribute. -/
def namedDataVal : Option NamedData → PyVal
  | none => .vnone
  | some (.one s) => .vstr s
  | some (.many l) => .vlist l

/-- The instance dictionary of a freshly constructed `BundleData`, in
`__init__` assignment order. -/
def instanceDict (b : BundleData) : PyDict :=
  [("type", .vnat b.type.toNat), ("source", .vstr b.source),
   ("destination", .vstr b.destination), ("payload", .vbytes b.payload),
   ("success", .vbool b.success), ("error", .vstr b.error),
   ("node_type", .vnat b.node_type),
   ("submitter", match b.submitter with | none => .vnone | some e => .vstr e),
   ("named_data", namedDataVal b.named_data)]

/-- `BundleData.dictify`: `own_dict = self.__dict__` aliases the instance
dictionary, so each `del` removes the attribute from the live object; the
returned dictionary *is* the mutated instance dictionary. -/
def bundleDictify (d0 : PyDict) : PyDict :=
  let d1 := if d0.lookup "payload" = some (.vbytes []) then delKey "payload" d0 else d0
  let d2 := if d1.lookup "node_type" = some (.vnat 0) then delKey "node_type" d1 else d1
  let d3 := if d2.lookup "submitter" = some .vnone then delKey "submitter" d2 else d2
  if d3.lookup "named_data" = some .vnone then delKey "named_data" d3 else d3

/-- `serialize(message)` for a bundle: pack `message.dictify()`.  The
object's instance dictionary after the call is exactly the returned
dictionary (they alias). -/
def serializeBundle (b : BundleData) : PyDict := bundleDictify (instanceDict b)

theorem lookup_delKey_self (k : String) (d : PyDict) : (delKey k d).lookup k = none := by
  induction d with
  | nil => rfl
  | cons p t ih =>
      by_cases h : p.1 = k
      · simpa [delKey, h] using ih
      · have hne : (p.1 == k) = false := beq_eq_false_iff_ne.mpr h
        have hne' : (k == p.1) = false := beq_eq_false_iff_ne.mpr (Ne.symm h)
        simpa [delKey, hne, List.lookup, hne'] using ih

theorem lookup_delKey_other (k k' : String) (d : PyDict) (h : k' ≠ k) :
    (delKey k d).lookup k' = d.lookup k' := by
  induction d with
  | nil => rfl
  | cons p t ih =>
      rcases p with ⟨pk, pv⟩
      by_cases hp : pk = k
      · have hne : (k' == pk) = false :=
          beq_eq_false_iff_ne.mpr (fun hh => h (hh.trans hp))
        have hdrop : delKey k ((pk, pv) :: t) = delKey k t := by
          simp [delKey, hp]
        rw [hdrop, ih, List.lookup, hne]
      · have hne : (pk == k) = false := beq_eq_false_iff_ne.mpr hp
        have hkeep : delKey k ((pk, pv) :: t) = (pk, pv) :: delKey k t := by
          simp [delKey, hne]
        rw [hkeep]
        by_cases hk' : k' = pk
        · subst hk'
          rw [List.lookup, List.lookup]
          simp
        · have hne' : (k' == pk) = false := beq_eq_false_iff_ne.mpr hk'
          rw [List.lookup, List.lookup, hne']
          exact ih

set_option maxHeartbeats 1600000 in
/-- C10: serializing a `BundleData` deletes each default-valued optional
attribute (`payload = b""`, `node_type = 0`, `submitter = None`,
`named_data = None`) from the object's own instance dictionary — after
`serialize` the object no longer carries those attributes — while every
other field keeps its value unchanged. -/
theorem serialize_mutates_bundle (b : BundleData) :
    ((serializeBundle b).lookup "payload"
        = if b.payload = [] then none else some (.vbytes b.payload))
    ∧ ((serializeBundle b).lookup "node_type"
        = if b.node_type = 0 then none else some (.vnat b.node_type))
    ∧ ((serializeBundle b).lookup "submitter"
        = match b.submitter with | none => none | some e => some (.vstr e))
    ∧ ((serializeBundle b).lookup "named_data"
        = match b.named_data with | none => none | some nd => some (namedDataVal (some nd)))
    ∧ (serializeBundle b).lookup "type" = some (.vnat b.type.toNat)
    ∧ (serializeBundle b).lookup "source" = some (.vstr b.source)
    ∧ (serializeBundle b).lookup "destination" = some (.vstr b.destination)
    ∧ (serializeBundle b).lookup "success" = some (.vbool b.success)
    ∧ (serializeBundle b).lookup "error" = some (.vstr b.error) := by
  rcases b with ⟨ty, src, dst, pay, suc, err, nt, sub, nd⟩
  by_cases h1 : pay = ([] : Bytes) <;>
    by_cases h2 : nt = 0 <;>
      rcases sub with _ | e <;>
        rcases nd with _ | (s | l) <;>
        · first
          | subst h1; subst h2
          | subst h1
          | subst h2
          | skip
          simp [serializeBundle, bundleDictify, instanceDict, namedDataVal, delKey,
            List.lookup, *]

/-- An exception escaping `Executor._handle_data`: a propagated storage
error, or the `TypeError` from iterating `None`. -/
inductive ExecErr where
  | storage (e : StorageError)
  | typeError
deriving DecidableEq, Repr

/-- The store loop of `Executor._handle_data`: store the bundle payload
under each listed name; an exception from `store_data` propagates
immediately, aborting the rest of the loop. -/
def storeLoop (hash : Bytes → String) (s : StorageState) (payload : Bytes) :
    List String → Except ExecErr Unit × StorageState
  | [] => (.ok (), s)
  | n :: rest =>
      match storeData hash s n payload with
      | (.ok _, s') => storeLoop hash s' payload rest
      | (.error e, s') => (.error (.storage e), s')

/-- `Executor._handle_data(bundle)`: normalize a scalar `named_data` to a
singleton list, store the payload under each name, and only then notify the
scheduler condition variable.  The result is the escaping exception (if
any), the storage afterwards, and whether `notify_all` was reached. -/
def execHandleData (hash : Bytes → String) (s : StorageState) (b : BundleData) :
    Except ExecErr Unit × StorageState × Bool :=
  match b.named_data with
  | none => (.error .typeError, s, false)
  | some nd =>
      let names := match nd with | .one n => [n] | .many l => l
      match storeLoop hash s b.payload names with
      | (.ok _, s') => (.ok (), s', true)
      | (.error e, s') => (.error e, s', false)

/-- C3 (the code at the failing input): with `"a"` already stored, an
inbound `NDATA_GET` bundle naming `"a"` again makes `_handle_data` raise
`NameTakenError("a")` — the exception escapes the handler (it is caught only
by the intake loop's catch-all) — and `notify_all` on the scheduler
condition variable is never reached; the stored bytes for `"a"` are left
unchanged. -/
theorem handleData_redelivery_raises :
    execHandleData (fun _ => "g") ⟨[{ name := "a", filename := "f" }], [("f", [1])]⟩
        { type := .NDATA_GET, source := "src", destination := "dst", payload := [2],
          named_data := some (.many ["a"]) }
      = (.error (.storage (.nameTaken "a")),
         ⟨[{ name := "a", filename := "f" }], [("f", [1])]⟩, false) := by
  rfl

/-- An absolute filesystem path as its component list from the root. -/
abbrev AbsPath := List String

/-- One step of `Path.resolve()` canonicalization: `.` is dropped, `..` pops
the last component (clamped at the root), anything else descends. -/
def resolveStep (cur : AbsPath) (c : String) : AbsPath :=
  if c = "." then cur
  else if c = ".." then cur.dropLast
  else cur ++ [c]

/-- `(base / p).resolve()` for a canonical absolute `base` and a
user-supplied relative path `p` (components after `lstrip("/")` and
splitting at `/`). -/
def resolvePath (base : AbsPath) (p : List String) : AbsPath :=
  p.foldl resolveStep base

/-- `q.is_relative_to(dataDir)` on canonical absolute paths. -/
def isWithin (dataDir q : AbsPath) : Bool := dataDir.isPrefixOf q

/-- Filesystem effects of preparation and collection: the directories
created and the files present (file path ↦ its contents, abstracted as the
name of the datum copied there). -/
structure FS where
  dirs : List AbsPath
  files : List (AbsPath × String)
deriving DecidableEq, Repr

/-- `path.mkdir(parents=True, exist_ok=True)`: the directory and all its
ancestors exist afterwards. -/
def mkdirp (fs : FS) (p : AbsPath) : FS :=
  { fs with dirs := ((List.range (p.length + 1)).map (fun k => p.take k)) ++ fs.dirs }

/-- `storage.copy_to_file(src, p)` on success: the file at `p` now holds the
datum `srcName`. -/
def writeFile (fs : FS) (p : AbsPath) (srcName : String) : FS :=
  { fs with files := (p, srcName) :: fs.files }

def isFile (fs : FS) (q : AbsPath) : Bool := (fs.files.lookup q).isSome

def isDir (fs : FS) (q : AbsPath) : Bool := fs.dirs.contains q

def pathExists (fs : FS) (q : AbsPath) : Bool := isDir fs q || isFile fs q

/-- A hard error escaping `_prepare_wasi_environment`: the `ValueError`
raised on a path escape (carrying the offending user path), or the
`NoSuchNameError` propagated from `copy_to_file`. -/
inductive PrepErr where
  | valueError (p : List String)
  | noSuchName (name : String)
deriving DecidableEq, Repr

/-- The `job.dirs` loop: canonicalize, raise `ValueError` on escape *before*
creating anything, else `mkdir(parents=True, exist_ok=True)`. -/
def prepareDirs (dataDir : AbsPath) : FS → List (List String) → Except PrepErr Unit × FS
  | fs, [] => (.ok (), fs)
  | fs, p :: rest =>
      let q := resolvePath dataDir p
      if isWithin dataDir q then prepareDirs dataDir (mkdirp fs q) rest
      else (.error (.valueError p), fs)

/-- The `job.data` loop: canonicalize, raise `ValueError` on escape before
any I/O for this path, create the parent directory, then `copy_to_file`
(raising `NoSuchNameError` when the named datum is absent). -/
def prepareData (stored : Finset String) (dataDir : AbsPath) :
    FS → List (List String × String) → Except PrepErr Unit × FS
  | fs, [] => (.ok (), fs)
  | fs, (p, nm) :: rest =>
      let q := resolvePath dataDir p
      if isWithin dataDir q then
        let fs1 := mkdirp fs q.dropLast
        if nm ∈ stored then prepareData stored dataDir (writeFile fs1 q nm) rest
        else (.error (.noSuchName nm), fs1)
      else (.error (.valueError p), fs)

/-- The optional `stdout_file`/`stderr_file` step: canonicalize, raise
`ValueError` on escape, then precreate the parent directory. -/
def prepareOut (dataDir : AbsPath) (fs : FS) :
    Option (List String) → Except PrepErr Unit × FS
  | none => (.ok (), fs)
  | some p =>
      let q := resolvePath dataDir p
      if isWithin dataDir q then (.ok (), mkdirp fs q.dropLast)
      else (.error (.valueError p), fs)

/-- Sequencing of preparation phases: a raise aborts the remaining phases. -/
def pthen (r : Except PrepErr Unit × FS) (k : FS → Except PrepErr Unit × FS) :
    Except PrepErr Unit × FS :=
  match r with
  | (.ok _, fs) => k fs
  | (.error e, fs) => (.error e, fs)

/-- The tail of `_prepare_wasi_environment` after the module and stdin
copies: create `data/`, then process `dirs`, `data`, `stdout_file` and
`stderr_file` in source order, short-circuiting at the first raise. -/
def prepareCore (stored : Finset String) (base : AbsPath) (job : JobInfo) (fs : FS) :
    Except PrepErr Unit × FS :=
  let dataDir := base ++ ["data"]
  let fs1 := mkdirp fs dataDir
  pthen (prepareDirs dataDir fs1 job.dirs) fun fs2 =>
    pthen (prepareData stored dataDir fs2 job.data) fun fs3 =>
      pthen (prepareOut dataDir fs3 job.stdout_file) fun fs4 =>
        prepareOut dataDir fs4 job.stderr_file

/-- `Executor._prepare_wasi_environment(job, base_dir)`: copy the WASM
module to `base/module.wasm`, the optional stdin datum to `base/stdin.bin`,
then run the sandbox-path phases.  `stored` is the set of names present in
the executor's storage (`copy_to_file` succeeds exactly on those). -/
def prepareWasi (stored : Finset String) (base : AbsPath) (job : JobInfo) (fs : FS) :
    Except PrepErr Unit × FS :=
  if job.wasm_module ∈ stored then
    let fs1 := writeFile fs (base ++ ["module.wasm"]) job.wasm_module
    match job.stdin_file with
    | some sf =>
        if sf ∈ stored then prepareCore stored base job (writeFile fs1 (base ++ ["stdin.bin"]) sf)
        else (.error (.noSuchName sf), fs1)
    | none => prepareCore stored base job fs1
  else (.error (.noSuchName job.wasm_module), fs)

/-- The files situated under directory `q` (`q.rglob("*")`, files only). -/
def filesUnder (fs : FS) (q : AbsPath) : List (AbsPath × String) :=
  fs.files.filter (fun e => q.isPrefixOf e.1)

/-- The entries of the results ZIP built by `_collect_results`: per
requested path — escapes, missing paths and exotic kinds are logged and
*skipped*; a file is added with its arcname relative to `data_dir`; a
directory contributes the files under it. -/
def collectResults (fs : FS) (dataDir : AbsPath) : List (List String) → List (AbsPath × String)
  | [] => []
  | p :: rest =>
      let q := resolvePath dataDir p
      if isWithin dataDir q = false then collectResults fs dataDir rest
      else if pathExists fs q = false then collectResults fs dataDir rest
      else if isFile fs q then
        (q.drop dataDir.length, (fs.files.lookup q).getD "") :: collectResults fs dataDir rest
      else if isDir fs q then
        ((filesUnder fs q).map (fun e => (e.1.drop dataDir.length, e.2)))
          ++ collectResults fs dataDir rest
      else collectResults fs dataDir rest

/-- A named-result value: the bytes of a file, or the in-memory ZIP of a
directory (arcnames relative to the directory's parent). -/
inductive RVal where
  | fileBytes (content : String)
  | dirZip (entries : List (AbsPath × String))
deriving DecidableEq, Repr

/-- `_collect_named_results`: per `(sandbox_path, out_name)` — escapes,
missing paths and exotic kinds are logged and *skipped*; a file contributes
its bytes under `out_name`; a directory contributes its ZIP. -/
def collectNamedResults (fs : FS) (dataDir : AbsPath) :
    List (List String × String) → List (String × RVal)
  | [] => []
  | (p, name) :: rest =>
      let q := resolvePath dataDir p
      if isWithin dataDir q = false then collectNamedResults fs dataDir rest
      else if pathExists fs q = false then collectNamedResults fs dataDir rest
      else if isFile fs q then
        (name, .fileBytes ((fs.files.lookup q).getD ""))
          :: collectNamedResults fs dataDir rest
      else if isDir fs q then
        (name, .dirZip ((filesUnder fs q).map (fun e => (e.1.drop (q.length - 1), e.2))))
          :: collectNamedResults fs dataDir rest
      else collectNamedResults fs dataDir rest

/-- The empty/singleton list of an optional sandbox path. -/
def optList : Option (List String) → List (List String)
  | some p => [p]
  | none => []

/-- The user-supplied sandbox paths that `_prepare_wasi_environment`
escape-checks, in processing order. -/
def sandboxPaths (job : JobInfo) : List (List String) :=
  job.dirs ++ job.data.map Prod.fst ++ optList job.stdout_file ++ optList job.stderr_file

theorem pthen_ok (r : Except PrepErr Unit × FS) (k : FS → Except PrepErr Unit × FS)
    (h : r.1 = .ok ()) : pthen r k = k r.2 := by
  rcases r with ⟨r1, fs⟩
  simp only at h
  subst h
  rfl

theorem pthen_err (r : Except PrepErr Unit × FS) (k : FS → Except PrepErr Unit × FS)
    (e : PrepErr) (h : r.1 = .error e) : pthen r k = (.error e, r.2) := by
  rcases r with ⟨r1, fs⟩
  simp only at h
  subst h
  rfl

theorem prepareDirs_cases (dataDir : AbsPath) (l : List (List String)) :
    ∀ fs : FS,
      ((prepareDirs dataDir fs l).1 = .ok ()
        ∧ ∀ p ∈ l, isWithin dataDir (resolvePath dataDir p) = true)
      ∨ (∃ p ∈ l, (prepareDirs dataDir fs l).1 = .error (.valueError p)
          ∧ isWithin dataDir (resolvePath dataDir p) = false) := by
  induction l with
  | nil =>
      intro fs
      left
      exact ⟨rfl, by simp⟩
  | cons p rest ih =>
      intro fs
      simp only [prepareDirs]
      by_cases hin : isWithin dataDir (resolvePath dataDir p) = true
      · rw [if_pos hin]
        rcases ih (mkdirp fs (resolvePath dataDir p)) with ⟨hok, hall⟩ | ⟨p', hp', herr, hesc⟩
        · left
          refine ⟨hok, ?_⟩
          intro x hx
          rcases List.mem_cons.mp hx with rfl | hx
          · exact hin
          · exact hall x hx
        · right
          exact ⟨p', List.mem_cons_of_mem _ hp', herr, hesc⟩
      · rw [if_neg hin]
        right
        exact ⟨p, List.mem_cons_self _ _, rfl, by simpa using hin⟩

theorem prepareData_cases (stored : Finset String) (dataDir : AbsPath)
    (l : List (List String × String)) :
    ∀ fs : FS, (∀ pr ∈ l, pr.2 ∈ stored) →
      ((prepareData stored dataDir fs l).1 = .ok ()
        ∧ ∀ pr ∈ l, isWithin dataDir (resolvePath dataDir pr.1) = true)
      ∨ (∃ pr ∈ l, (prepareData stored dataDir fs l).1 = .error (.valueError pr.1)
          ∧ isWithin dataDir (resolvePath dataDir pr.1) = false) := by
  induction l with
  | nil =>
      intro fs _
      left
      exact ⟨rfl, by simp⟩
  | cons pr rest ih =>
      intro fs hst
      rcases pr with ⟨p, nm⟩
      have hnm : nm ∈ stored := hst (p, nm) (List.mem_cons_self _ _)
      simp only [prepareData]
      by_cases hin : isWithin dataDir (resolvePath dataDir p) = true
      · rw [if_pos hin, if_pos hnm]
        rcases ih _ (fun x hx => hst x (List.mem_cons_of_mem _ hx)) with
          ⟨hok, hall⟩ | ⟨pr', hp', herr, hesc⟩
        · left
          refine ⟨hok, ?_⟩
          intro x hx
          rcases List.mem_cons.mp hx with rfl | hx
          · exact hin
          · exact hall x hx
        · right
          exact ⟨pr', List.mem_cons_of_mem _ hp', herr, hesc⟩
      · rw [if_neg hin]
        right
        exact ⟨(p, nm), List.mem_cons_self _ _, rfl, by simpa using hin⟩

theorem prepareOut_cases (dataDir : AbsPath) (fs : FS) (o : Option (List String)) :
    ((prepareOut dataDir fs o).1 = .ok ()
      ∧ ∀ p ∈ optList o, isWithin dataDir (resolvePath dataDir p) = true)
    ∨ (∃ p ∈ optList o, (prepareOut dataDir fs o).1 = .error (.valueError p)
        ∧ isWithin dataDir (resolvePath dataDir p) = false) := by
  cases o with
  | none =>
      left
      exact ⟨rfl, by simp [optList]⟩
  | some p =>
      simp only [prepareOut, optList]
      by_cases hin : isWithin dataDir (resolvePath dataDir p) = true
      · rw [if_pos hin]
        left
        refine ⟨rfl, ?_⟩
        intro x hx
        rcases List.mem_singleton.mp hx with rfl
        exact hin
      · rw [if_neg hin]
        right
        exact ⟨p, List.mem_singleton.mpr rfl, rfl, by simpa using hin⟩

theorem prepareCore_cases (stored : Finset String) (base : AbsPath) (job : JobInfo)
    (fs : FS) (hdata : ∀ pr ∈ job.data, pr.2 ∈ stored) :
    ((prepareCore stored base job fs).1 = .ok ()
      ∧ ∀ p ∈ sandboxPaths job,
          isWithin (base ++ ["data"]) (resolvePath (base ++ ["data"]) p) = true)
    ∨ (∃ p ∈ sandboxPaths job,
        (prepareCore stored base job fs).1 = .error (.valueError p)
        ∧ isWithin (base ++ ["data"]) (resolvePath (base ++ ["data"]) p) = false) := by
  simp only [prepareCore]
  rcases prepareDirs_cases (base ++ ["data"]) job.dirs (mkdirp fs (base ++ ["data"])) with
    ⟨hok1, hall1⟩ | ⟨p, hp, herr, hesc⟩
  · rw [pthen_ok _ _ hok1]
    rcases prepareData_cases stored (base ++ ["data"]) job.data _ hdata with
      ⟨hok2, hall2⟩ | ⟨pr, hpr, herr, hesc⟩
    · rw [pthen_ok _ _ hok2]
      rcases prepareOut_cases (base ++ ["data"]) _ job.stdout_file with
        ⟨hok3, hall3⟩ | ⟨p, hp, herr, hesc⟩
      · rw [pthen_ok _ _ hok3]
        rcases prepareOut_cases (base ++ ["data"]) _ job.stderr_file with
          ⟨hok4, hall4⟩ | ⟨p, hp, herr, hesc⟩
        · left
          refine ⟨hok4, ?_⟩
          intro x hx
          simp only [sandboxPaths, List.mem_append] at hx
          rcases hx with ((hx | hx) | hx) | hx
          · exact hall1 x hx
          · obtain ⟨pr, hpr, rfl⟩ := List.mem_map.mp hx
            exact hall2 pr hpr
          · exact hall3 x hx
          · exact hall4 x hx
        · right
          refine ⟨p, ?_, herr, hesc⟩
          simp only [sandboxPaths, List.mem_append]
          exact Or.inr hp
      · right
        rw [pthen_err _ _ _ herr]
        refine ⟨p, ?_, rfl, hesc⟩
        simp only [sandboxPaths, List.mem_append]
        exact Or.inl (Or.inr hp)
    · right
      rw [pthen_err _ _ _ herr]
      refine ⟨pr.1, ?_, rfl, hesc⟩
      simp only [sandboxPaths, List.mem_append, List.mem_map]
      exact Or.inl (Or.inl (Or.inr ⟨pr, hpr, rfl⟩))
  · right
    rw [pthen_err _ _ _ herr]
    refine ⟨p, ?_, rfl, hesc⟩
    simp only [sandboxPaths, List.mem_append]
    exact Or.inl (Or.inl (Or.inl hp))

theorem prepareWasi_cases (stored : Finset String) (base : AbsPath) (job : JobInfo)
    (fs : FS) (hreq : ∀ n ∈ requiredNamedData job, n ∈ stored) :
    ((prepareWasi stored base job fs).1 = .ok ()
      ∧ ∀ p ∈ sandboxPaths job,
          isWithin (base ++ ["data"]) (resolvePath (base ++ ["data"]) p) = true)
    ∨ (∃ p ∈ sandboxPaths job,
        (prepareWasi stored base job fs).1 = .error (.valueError p)
        ∧ isWithin (base ++ ["data"]) (resolvePath (base ++ ["data"]) p) = false) := by
  have hw : job.wasm_module ∈ stored := hreq _ (by simp [requiredNamedData])
  have hdata : ∀ pr ∈ job.data, pr.2 ∈ stored := by
    intro pr hpr
    apply hreq
    simp only [requiredNamedData, List.mem_toFinset, List.mem_cons, List.mem_append,
      List.mem_map]
    exact Or.inr (Or.inr ⟨pr, hpr, rfl⟩)
  simp only [prepareWasi, if_pos hw]
  cases hsf : job.stdin_file with
  | none => exact prepareCore_cases stored base job _ hdata
  | some sf =>
      have hs : sf ∈ stored := hreq _ (by simp [requiredNamedData, hsf])
      dsimp only
      rw [if_pos hs]
      exact prepareCore_cases stored base job _ hdata

/-- Everything the preparation may create or write, relative to a starting
filesystem: new directories sit on the data-directory spine (an ancestor or
a descendant of `dataDir`), new files sit under `dataDir` or are the fixed
`module.wasm` / `stdin.bin` files. -/
def contained (fs₀ : FS) (dataDir base : AbsPath) (fs : FS) : Prop :=
  (∀ q ∈ fs.dirs, q ∈ fs₀.dirs ∨ dataDir.isPrefixOf q = true ∨ q.isPrefixOf dataDir = true)
  ∧ (∀ e ∈ fs.files, e ∈ fs₀.files ∨ dataDir.isPrefixOf e.1 = true
      ∨ e.1 = base ++ ["module.wasm"] ∨ e.1 = base ++ ["stdin.bin"])

theorem contained_mkdirp (fs₀ : FS) (dataDir base : AbsPath) (fs : FS) (p : AbsPath)
    (hfs : contained fs₀ dataDir base fs)
    (hp : dataDir.isPrefixOf p = true ∨ p.isPrefixOf dataDir = true) :
    contained fs₀ dataDir base (mkdirp fs p) := by
  refine ⟨?_, hfs.2⟩
  intro q hq
  simp only [mkdirp, List.mem_append, List.mem_map, List.mem_range] at hq
  rcases hq with ⟨k, hk, rfl⟩ | hq
  · right
    have hqp : p.take k <+: p := List.take_prefix k p
    rcases hp with hp | hp
    · rw [ List.isPrefixOf_iff_prefix] at hp
      rw [ List.isPrefixOf_iff_prefix, List.isPrefixOf_iff_prefix]
      exact List.prefix_or_prefix_of_prefix hp hqp
    · refine Or.inr ?_
      rw [ List.isPrefixOf_iff_prefix] at hp ⊢
      exact hqp.trans hp
  · exact hfs.1 q hq

theorem contained_writeFile (fs₀ : FS) (dataDir base : AbsPath) (fs : FS) (p : AbsPath)
    (nm : String) (hfs : contained fs₀ dataDir base fs)
    (hp : dataDir.isPrefixOf p = true ∨ p = base ++ ["module.wasm"]
      ∨ p = base ++ ["stdin.bin"]) :
    contained fs₀ dataDir base (writeFile fs p nm) := by
  refine ⟨hfs.1, ?_⟩
  intro e he
  simp only [writeFile, List.mem_cons] at he
  rcases he with rfl | he
  · rcases hp with hp | hp | hp
    · exact Or.inr (Or.inl hp)
    · exact Or.inr (Or.inr (Or.inl hp))
    · exact Or.inr (Or.inr (Or.inr hp))
  · exact hfs.2 e he

theorem spine_dropLast (dataDir q : AbsPath) (hin : dataDir.isPrefixOf q = true) :
    dataDir.isPrefixOf q.dropLast = true ∨ q.dropLast.isPrefixOf dataDir = true := by
  have h1 : q.dropLast <+: q := List.dropLast_prefix q
  have h2 : dataDir <+: q := List.isPrefixOf_iff_prefix.mp hin
  rcases List.prefix_or_prefix_of_prefix h2 h1 with h | h
  · exact Or.inl ( List.isPrefixOf_iff_prefix.mpr h)
  · exact Or.inr ( List.isPrefixOf_iff_prefix.mpr h)

theorem pthen_contained (P : FS → Prop) (r : Except PrepErr Unit × FS)
    (k : FS → Except PrepErr Unit × FS) (hr : P r.2) (hk : ∀ fs, P fs → P (k fs).2) :
    P (pthen r k).2 := by
  rcases r with ⟨r1, fs⟩
  cases r1 with
  | ok u => cases u; exact hk fs hr
  | error e => exact hr

theorem prepareDirs_contained (fs₀ : FS) (dataDir base : AbsPath) (l : List (List String)) :
    ∀ fs : FS, contained fs₀ dataDir base fs →
      contained fs₀ dataDir base (prepareDirs dataDir fs l).2 := by
  induction l with
  | nil => intro fs h; exact h
  | cons p rest ih =>
      intro fs h
      simp only [prepareDirs]
      by_cases hin : isWithin dataDir (resolvePath dataDir p) = true
      · rw [if_pos hin]
        exact ih _ (contained_mkdirp fs₀ dataDir base fs _ h (Or.inl hin))
      · rw [if_neg hin]
        exact h

theorem prepareData_contained (fs₀ : FS) (stored : Finset String) (dataDir base : AbsPath)
    (l : List (List String × String)) :
    ∀ fs : FS, contained fs₀ dataDir base fs →
      contained fs₀ dataDir base (prepareData stored dataDir fs l).2 := by
  induction l with
  | nil => intro fs h; exact h
  | cons pr rest ih =>
      intro fs h
      rcases pr with ⟨p, nm⟩
      simp only [prepareData]
      by_cases hin : isWithin dataDir (resolvePath dataDir p) = true
      · rw [if_pos hin]
        have h1 := contained_mkdirp fs₀ dataDir base fs (resolvePath dataDir p).dropLast h
          (spine_dropLast dataDir _ hin)
        by_cases hnm : nm ∈ stored
        · rw [if_pos hnm]
          exact ih _ (contained_writeFile fs₀ dataDir base _ _ nm h1 (Or.inl hin))
        · rw [if_neg hnm]
          exact h1
      · rw [if_neg hin]
        exact h

theorem prepareOut_contained (fs₀ : FS) (dataDir base : AbsPath) (fs : FS)
    (o : Option (List String)) (h : contained fs₀ dataDir base fs) :
    contained fs₀ dataDir base (prepareOut dataDir fs o).2 := by
  cases o with
  | none => exact h
  | some p =>
      simp only [prepareOut]
      by_cases hin : isWithin dataDir (resolvePath dataDir p) = true
      · rw [if_pos hin]
        exact contained_mkdirp fs₀ dataDir base fs _ h (spine_dropLast dataDir _ hin)
      · rw [if_neg hin]
        exact h

theorem prepareCore_contained (fs₀ : FS) (stored : Finset String) (base : AbsPath)
    (job : JobInfo) (fs : FS) (h : contained fs₀ (base ++ ["data"]) base fs) :
    contained fs₀ (base ++ ["data"]) base (prepareCore stored base job fs).2 := by
  simp only [prepareCore]
  have h1 : contained fs₀ (base ++ ["data"]) base (mkdirp fs (base ++ ["data"])) :=
    contained_mkdirp fs₀ _ base fs _ h
      (Or.inl (by rw [ List.isPrefixOf_iff_prefix]))
  apply pthen_contained
  · exact prepareDirs_contained fs₀ _ base job.dirs _ h1
  · intro fs2 h2
    apply pthen_contained
    · exact prepareData_contained fs₀ stored _ base job.data _ h2
    · intro fs3 h3
      apply pthen_contained
      · exact prepareOut_contained fs₀ _ base _ job.stdout_file h3
      · intro fs4 h4
        exact prepareOut_contained fs₀ _ base _ job.stderr_file h4

theorem prepareWasi_contained (fs₀ : FS) (stored : Finset String) (base : AbsPath)
    (job : JobInfo) (h : contained fs₀ (base ++ ["data"]) base fs₀) :
    contained fs₀ (base ++ ["data"]) base (prepareWasi stored base job fs₀).2 := by
  simp only [prepareWasi]
  by_cases hw : job.wasm_module ∈ stored
  · rw [if_pos hw]
    have h1 : contained fs₀ (base ++ ["data"]) base
        (writeFile fs₀ (base ++ ["module.wasm"]) job.wasm_module) :=
      contained_writeFile fs₀ _ base fs₀ _ _ h (Or.inr (Or.inl rfl))
    cases hsf : job.stdin_file with
    | none => exact prepareCore_contained fs₀ stored base job _ h1
    | some sf =>
        dsimp only
        by_cases hs : sf ∈ stored
        · rw [if_pos hs]
          exact prepareCore_contained fs₀ stored base job _
            (contained_writeFile fs₀ _ base _ _ _ h1 (Or.inr (Or.inr rfl)))
        · rw [if_neg hs]
          exact h1
  · rw [if_neg hw]
    exact h

theorem collectResults_skips (fs : FS) (dataDir : AbsPath) (l : List (List String)) :
    collectResults fs dataDir l
      = collectResults fs dataDir
          (l.filter (fun p => isWithin dataDir (resolvePath dataDir p))) := by
  induction l with
  | nil => rfl
  | cons p rest ih =>
      by_cases hin : isWithin dataDir (resolvePath dataDir p) = true
      · simp only [collectResults, List.filter_cons, hin, if_true, Bool.true_eq_false,
          if_false, ih]
      · have hin' : isWithin dataDir (resolvePath dataDir p) = false := by simpa using hin
        simp only [collectResults, List.filter_cons, hin', Bool.false_eq_true, if_false,
          if_true, ih]

theorem collectNamedResults_skips (fs : FS) (dataDir : AbsPath)
    (l : List (List String × String)) :
    collectNamedResults fs dataDir l
      = collectNamedResults fs dataDir
          (l.filter (fun e => isWithin dataDir (resolvePath dataDir e.1))) := by
  induction l with
  | nil => rfl
  | cons pr rest ih =>
      rcases pr with ⟨p, name⟩
      by_cases hin : isWithin dataDir (resolvePath dataDir p) = true
      · simp only [collectNamedResults, List.filter_cons, hin, if_true, Bool.true_eq_false,
          if_false, ih]
      · have hin' : isWithin dataDir (resolvePath dataDir p) = false := by simpa using hin
        simp only [collectNamedResults, List.filter_cons, hin', Bool.false_eq_true, if_false,
          if_true, ih]

/-- C2 (counterexample): an escaping `named_results` path does not reject
the job with a hard error — it is silently skipped.  With a file at
`base/secret.txt` outside the data directory `base/data`, collecting
`{"../secret.txt": "escaped_file"}` returns no results and raises nothing
(the function has no error outcome at all), although
`canonicalize(data_dir/"../secret.txt")` is not a descendant of `data_dir`. -/
theorem collectNamedResults_escape_skipped :
    collectNamedResults
        { dirs := [["base"], ["base", "data"]],
          files := [(["base", "secret.txt"], "hello-from-host")] }
        ["base", "data"] [(["..", "secret.txt"], "escaped_file")] = []
    ∧ isWithin ["base", "data"]
        (resolvePath ["base", "data"] ["..", "secret.txt"]) = false := by
  constructor <;> rfl

/-- C2 (amended): for the user-supplied sandbox paths in `dirs`, `data`,
`stdout_file` and `stderr_file`, the executor canonicalizes
`data_dir / lstrip(p, "/")` and (given every required named datum is
present) rejects the job with a `ValueError` iff one of those paths is not a
descendant of `data_dir`; the checks precede the I/O — every directory the
preparation ever creates lies on the data-directory spine and every file it
writes lies under `data_dir` or is the fixed `module.wasm`/`stdin.bin` —
while escaping paths in `results` and `named_results` are skipped without
any error, contributing nothing to the collected results. -/
theorem prepare_path_escape_defense (stored : Finset String) (base : AbsPath)
    (job : JobInfo) (fs₀ : FS)
    (hreq : ∀ n ∈ requiredNamedData job, n ∈ stored)
    (hfs : contained fs₀ (base ++ ["data"]) base fs₀) :
    ((∃ p ∈ sandboxPaths job,
        isWithin (base ++ ["data"]) (resolvePath (base ++ ["data"]) p) = false)
      ↔ ∃ p, (prepareWasi stored base job fs₀).1 = .error (.valueError p))
    ∧ contained fs₀ (base ++ ["data"]) base (prepareWasi stored base job fs₀).2
    ∧ (∀ fs dataDir, collectResults fs dataDir job.results
        = collectResults fs dataDir (job.results.filter
            (fun p => isWithin dataDir (resolvePath dataDir p))))
    ∧ (∀ fs dataDir, collectNamedResults fs dataDir job.named_results
        = collectNamedResults fs dataDir (job.named_results.filter
            (fun e => isWithin dataDir (resolvePath dataDir e.1)))) := by
  refine ⟨?_, prepareWasi_contained fs₀ stored base job hfs,
    fun fs dataDir => collectResults_skips fs dataDir job.results,
    fun fs dataDir => collectNamedResults_skips fs dataDir job.named_results⟩
  constructor
  · rintro ⟨p, hp, hesc⟩
    rcases prepareWasi_cases stored base job fs₀ hreq with ⟨-, hall⟩ | ⟨p', -, herr, -⟩
    · rw [hall p hp] at hesc
      cases hesc
    · exact ⟨p', herr⟩
  · rintro ⟨p', herr⟩
    rcases prepareWasi_cases stored base job fs₀ hreq with ⟨hok, -⟩ | ⟨p'', hp'', -, hesc⟩
    · rw [hok] at herr
      cases herr
    · exact ⟨p'', hp'', hesc⟩

/-- Witness for `prepare_path_escape_defense`: a job whose only sandbox path
is the benign `["d"]` raises no `ValueError`, and a job whose `dirs` holds
the escaping `["..", "etc"]` is rejected with one. -/
theorem prepare_path_escape_defense_witness :
    (¬ ∃ p, (prepareWasi {"m"} ["b"]
        { wasm_module := "m", capabilities := ⟨0, 0, 0, 0⟩, dirs := [["d"]] }
        ⟨[], []⟩).1 = .error (.valueError p))
    ∧ ∃ p, (prepareWasi {"m"} ["b"]
        { wasm_module := "m", capabilities := ⟨0, 0, 0, 0⟩, dirs := [["..", "etc"]] }
        ⟨[], []⟩).1 = .error (.valueError p) := by
  constructor
  · intro hex
    have h := (prepare_path_escape_defense {"m"} ["b"]
        { wasm_module := "m", capabilities := ⟨0, 0, 0, 0⟩, dirs := [["d"]] } ⟨[], []⟩
        (by decide) (by constructor <;> (intro x hx; cases hx))).1.mpr hex
    revert h
    decide
  · exact (prepare_path_escape_defense {"m"} ["b"]
      { wasm_module := "m", capabilities := ⟨0, 0, 0, 0⟩, dirs := [["..", "etc"]] } ⟨[], []⟩
      (by decide) (by constructor <;> (intro x hx; cases hx))).1.mp (by decide)

end Dtn
